import Mathlib

/-!
Shallow embedding of `src/index.js` of `list-github-repos`.

The program lists a GitHub account's repositories, enriches each with commit
metadata, and writes a CSV.  The remote GitHub client (`octokit`) is an
external collaborator: it is modelled as an explicit environment record whose
fields are the distinct remote call sites, each returning `Except GhError _`
(a remote call either produces data or raises an error).  JavaScript promise
code is sequentialised: `await Promise.all` over a batch is a synchronization
barrier, so one loop iteration of `processConcurrently` is one atomic step
that launches a whole batch and collects all of its results before the next
iteration starts.  `async` functions that can run forever (the chunk loop
with a non-positive step) are modelled with explicit fuel: a `none` result
for every fuel value means the loop never reaches its exit condition.
Machine numbers are `Int`/`Nat` (all quantities here are far below 2^53, so
JavaScript numbers behave as exact integers on them).  `console.log`
progress output is observational and is not modelled, except for the error
logs of `getUserRepos`, which claim C8 is about.
-/

/-- A remote-service error as surfaced by the GitHub client: an optional
HTTP status code and a message (`error.status`, `error.message`). -/
structure GhError where
  status : Option Nat
  message : String
deriving Repr, DecidableEq

/-- The authenticated user returned by `users.getAuthenticated`
(only the `login` field is read by the program, line 53). -/
structure User where
  login : String
deriving Repr, DecidableEq

/-- Repository detail returned by `repos.get`
(only `default_branch` is read, line 97). -/
structure RepoDetail where
  default_branch : String
deriving Repr, DecidableEq

/-- `commit.committer` of a commit object (only `date` is read, line 117). -/
structure CommitAuthor where
  date : String
deriving Repr, DecidableEq

/-- The `commit` field of a commit object. -/
structure CommitData where
  committer : CommitAuthor
deriving Repr, DecidableEq

/-- One element of the list returned by `repos.listCommits`. -/
structure Commit where
  commit : CommitData
deriving Repr, DecidableEq

/-- The record returned by `getRepoCommitInfo` (lines 115-118 and 121-124).
`commitCount` is an `Int` because `-1` is a valid sentinel value. -/
structure CommitInfo where
  commitCount : Int
  lastCommitDate : Option String
deriving Repr, DecidableEq

/-- An (owner login, repository name) pair, the input of the enrichment
transform (line 154 passes `repo.owner.login` and `repo.name`). -/
structure RepoRef where
  owner : String
  name : String
deriving Repr, DecidableEq

/-- The remote operations `getRepoCommitInfo` performs, one field per
distinct remote call site of lines 92-113: `repos.get` (line 92),
`repos.listCommits` with `per_page: 1` (line 100), and
`octokit.paginate(repos.listCommits)` (line 108).  Arguments are
owner, repo, and (for the commit calls) the branch `sha`. -/
structure CommitEnv where
  getRepo : String → String → Except GhError RepoDetail
  listCommitsPage1 : String → String → String → Except GhError (List Commit)
  paginateCommits : String → String → String → Except GhError (List Commit)

/-- The remote operations `getUserRepos` performs (lines 52-74), over an
abstract repository type `ρ` (the listing result is passed through
unexamined by the code this development covers). -/
structure ListEnv (ρ : Type) where
  getAuthenticated : Except GhError User
  listForAuthenticatedUser : Except GhError (List ρ)
  listForUser : String → Except GhError (List ρ)

/-- Line 7: `const FETCH_COMMIT_COUNT = false;`. -/
def FETCH_COMMIT_COUNT : Bool := false

/-- Line 8: `const CONCURRENCY_LIMIT = 10;`. -/
def CONCURRENCY_LIMIT : Int := 10

/-- JavaScript `Array.prototype.slice(s, e)`: negative indices count from the
end of the array, and both indices are clamped to `[0, length]`. -/
def jsSlice {α : Type} (l : List α) (s e : Int) : List α :=
  let len : Int := l.length
  let s1 : Nat := (if s < 0 then max (len + s) 0 else min s len).toNat
  let e1 : Nat := (if e < 0 then max (len + e) 0 else min e len).toNat
  (l.take e1).drop s1

/-- `batch.map((item, index) => p(item, i + index))` (lines 133-137): the
element at batch position `j` is mapped to `p item (i + j)`, written as a
recursion that advances the global index by one per element. -/
def mapIdxFrom {α β : Type} (p : α → Int → β) : Int → List α → List β
  | _, [] => []
  | i, a :: l => p a i :: mapIdxFrom p (i + 1) l

/-- The loop of `processConcurrently` (lines 130-142), made total with
fuel (one unit per loop-condition check).  State: loop index `i` and the
`results` accumulator.  Each iteration with `i < items.length` takes the
batch `items.slice(i, i + c)`, maps it with global indices `i + index`
(the `await Promise.all` barrier makes the whole batch one atomic step),
appends the batch results, and continues at `i + c`.  A `none` result
means the fuel ran out before the loop condition became false. -/
def processConcurrentlyAux {α β : Type} (items : List α) (p : α → Int → β) (c : Int) :
    Nat → Int → List β → Option (List β)
  | 0, _, _ => none
  | fuel + 1, i, results =>
    if i < (items.length : Int) then
      processConcurrentlyAux items p c fuel (i + c)
        (results ++ mapIdxFrom p i (jsSlice items i (i + c)))
    else
      some results

/-- `processConcurrently(items, processor, concurrency)` (lines 129-143):
run the chunk loop from `i = 0` with an empty `results` array.  In the
source, `concurrency` defaults to `CONCURRENCY_LIMIT`. -/
def processConcurrently {α β : Type} (items : List α) (p : α → Int → β) (c : Int)
    (fuel : Nat) : Option (List β) :=
  processConcurrentlyAux items p c fuel 0 []

/-- Instrumentation of the same loop that records, instead of the results,
the sequence of batches launched (one entry per execution of line 132),
in launch order. -/
def chunksAux {α : Type} (items : List α) (c : Int) :
    Nat → Int → List (List α) → Option (List (List α))
  | 0, _, _ => none
  | fuel + 1, i, acc =>
    if i < (items.length : Int) then
      chunksAux items c fuel (i + c) (acc ++ [jsSlice items i (i + c)])
    else
      some acc

/-- The chunk-launch trace of a `processConcurrently` run. -/
def chunks {α : Type} (items : List α) (c : Int) (fuel : Nat) : Option (List (List α)) :=
  chunksAux items c fuel 0 []

/-- Sequential composition of per-chunk results: chunk `b` starting at
global index `i` contributes `mapIdxFrom p i b`, fully appended before the
next chunk is processed — the barrier schedule of the source loop. -/
def runChunks {α β : Type} (p : α → Int → β) : Int → List (List α) → List β
  | _, [] => []
  | i, b :: bs => mapIdxFrom p i b ++ runChunks p (i + (b.length : Int)) bs

/-- The `try` block of `getRepoCommitInfo` (lines 90-118), with the feature
flag as an explicit parameter (the source reads the constant
`FETCH_COMMIT_COUNT`): fetch the repository detail for its default branch,
fetch the first page (one commit) of that branch, optionally paginate the
whole history, and build the record.  Any failing step aborts the block
with that error. -/
def getRepoCommitInfoE (flag : Bool) (env : CommitEnv) (owner repo : String) :
    Except GhError CommitInfo := do
  let repoInfo ← env.getRepo owner repo
  let defaultBranch := repoInfo.default_branch
  let commits ← env.listCommitsPage1 owner repo defaultBranch
  let allCommits ← if flag then env.paginateCommits owner repo defaultBranch
                   else Except.ok []
  Except.ok
    { commitCount := if flag then (allCommits.length : Int) else -1
      lastCommitDate := commits.head?.map (fun c => c.commit.committer.date) }

/-- `getRepoCommitInfo` (lines 89-126): the `try` block, with the `catch`
of lines 119-125 converting any error into `{commitCount: 0,
lastCommitDate: null}` (a warning is logged and discarded here). -/
def getRepoCommitInfo (flag : Bool) (env : CommitEnv) (owner repo : String) : CommitInfo :=
  match getRepoCommitInfoE flag env owner repo with
  | .ok info => info
  | .error _ => { commitCount := 0, lastCommitDate := none }

/-- JavaScript `String.prototype.toLowerCase()`, modelled as the per-character
lowercase map (GitHub logins are ASCII, where the two coincide). -/
def jsToLowerCase (s : String) : String :=
  String.mk (s.toList.map Char.toLower)

/-- The `try` block of `getUserRepos` (lines 48-77): get the authenticated
user, compare logins case-insensitively (line 53), and list with
`listForAuthenticatedUser` for the own account or `listForUser` otherwise. -/
def getUserReposTry {ρ : Type} (env : ListEnv ρ) (username : String) :
    Except GhError (List ρ) := do
  let authenticatedUser ← env.getAuthenticated
  if jsToLowerCase authenticatedUser.login = jsToLowerCase username then
    env.listForAuthenticatedUser
  else
    env.listForUser username

/-- The `console.error` lines of the `catch` block (lines 79-84): the
generic message, then a classification hint for status 404 or 401. -/
def listingErrorLog (e : GhError) : List String :=
  ["Error fetching repositories: " ++ e.message] ++
    (if e.status = some 404 then
      ["User not found or you don\x27t have access to their repositories"]
    else if e.status = some 401 then
      ["Invalid GitHub token or insufficient permissions"]
    else [])

/-- `getUserRepos` (lines 47-87): result of the `try` block paired with the
error log it printed; on error the same error is re-thrown unchanged
(line 85) after logging.  Success-path `console.log` output is elided. -/
def getUserRepos {ρ : Type} (env : ListEnv ρ) (username : String) :
    Except GhError (List ρ) × List String :=
  match getUserReposTry env username with
  | .ok repos => (.ok repos, [])
  | .error e => (.error e, listingErrorLog e)

/-- The fallible prefix of `run` (lines 212-248): `getAuthenticated`
(line 228) then the listing via `processRepositories` → `getUserRepos`
(line 231).  The remaining steps cannot raise: the enrichment transform is
total (`getRepoCommitInfo` catches internally) and CSV export is an
external collaborator modelled as non-failing. -/
def runExcept {ρ : Type} (env : ListEnv ρ) (username : String) : Except GhError Unit := do
  let _authenticatedUser ← env.getAuthenticated
  let _repos ← getUserReposTry env username
  Except.ok ()

/-- The process exit code of `run`: the `catch` of lines 249-252 maps any
raised error to `process.exit(1)`; otherwise the run falls through with
exit code 0. -/
def runExit {ρ : Type} (env : ListEnv ρ) (username : String) : Nat :=
  match runExcept env username with
  | .ok _ => 0
  | .error _ => 1

/-- The character substitution of `replace(/[:.]/g, '-')` (line 221):
every colon and every dot becomes a dash. -/
def jsReplaceColonDot (ch : Char) : Char :=
  if ch = ':' || ch = '.' then '-' else ch

/-- The ISO timestamp with colons and dots replaced by dashes, with no
truncation — this follows the spec text for the default filename, for
comparison with the source. -/
def specTimestamp (iso : String) : String :=
  String.mk (iso.toList.map jsReplaceColonDot)

/-- Line 221: `now.toISOString().replace(/[:.]/g, '-').slice(0, 19)` —
substitute, then keep only the first 19 characters. -/
def timestampOf (iso : String) : String :=
  String.mk ((iso.toList.map jsReplaceColonDot).take 19)

/-- The default output filename built at line 223 from the username and the
timestamp of line 221. -/
def defaultOutputPath (username iso : String) : String :=
  username ++ "-repositories-" ++ timestampOf iso ++ ".csv"

/-- The default filename as the spec words it: the full substituted ISO
timestamp, never truncated. -/
def specDefaultOutputPath (username iso : String) : String :=
  username ++ "-repositories-" ++ specTimestamp iso ++ ".csv"

/-- Line 223: `outputFile || default` — when no output file argument is
given (`none`), fall back to the default filename.  (JavaScript `||` also
treats an empty string as missing; the claims only concern the `none`
case.) -/
def outputPathOf (outputFile : Option String) (username iso : String) : String :=
  outputFile.getD (defaultOutputPath username iso)

/-- A commit environment whose repository-detail call always fails, for
exercising the enricher's error path on concrete inputs. -/
def failingCommitEnv : CommitEnv where
  getRepo := fun _ _ => .error { status := some 404, message := "Not Found" }
  listCommitsPage1 := fun _ _ _ => .ok []
  paginateCommits := fun _ _ _ => .ok []

/-- A commit environment over a fixed two-commit history (newest first), for
exercising the enricher's success path on concrete inputs. -/
def demoCommitEnv : CommitEnv where
  getRepo := fun _ _ => .ok { default_branch := "main" }
  listCommitsPage1 := fun _ _ _ =>
    .ok [{ commit := { committer := { date := "2025-08-01T00:00:00Z" } } }]
  paginateCommits := fun _ _ _ =>
    .ok [{ commit := { committer := { date := "2025-08-01T00:00:00Z" } } },
         { commit := { committer := { date := "2025-07-01T00:00:00Z" } } }]

/-- A listing environment whose public-listing call fails, for exercising the
listing error path on concrete inputs. -/
def failingListEnv : ListEnv Nat where
  getAuthenticated := .ok { login := "Alice" }
  listForAuthenticatedUser := .ok [1, 2]
  listForUser := fun _ => .error { status := some 404, message := "Not Found" }

/-- A healthy listing environment, for exercising the mode selection on
concrete inputs. -/
def demoListEnv : ListEnv Nat where
  getAuthenticated := .ok { login := "Alice" }
  listForAuthenticatedUser := .ok [1, 2, 3]
  listForUser := fun _ => .ok []

/-! ## Basic equations and helper lemmas -/

lemma mapIdxFrom_nil {α β : Type} (p : α → Int → β) (i : Int) :
    mapIdxFrom p i ([] : List α) = [] := rfl

lemma mapIdxFrom_cons {α β : Type} (p : α → Int → β) (i : Int) (a : α) (l : List α) :
    mapIdxFrom p i (a :: l) = p a i :: mapIdxFrom p (i + 1) l := rfl

lemma processConcurrentlyAux_succ {α β : Type} (items : List α) (p : α → Int → β)
    (c : Int) (fuel : Nat) (i : Int) (results : List β) :
    processConcurrentlyAux items p c (fuel + 1) i results =
      if i < (items.length : Int) then
        processConcurrentlyAux items p c fuel (i + c)
          (results ++ mapIdxFrom p i (jsSlice items i (i + c)))
      else some results := rfl

lemma chunksAux_succ {α : Type} (items : List α) (c : Int) (fuel : Nat)
    (i : Int) (acc : List (List α)) :
    chunksAux items c (fuel + 1) i acc =
      if i < (items.length : Int) then
        chunksAux items c fuel (i + c) (acc ++ [jsSlice items i (i + c)])
      else some acc := rfl

lemma runChunks_nil {α β : Type} (p : α → Int → β) (i : Int) :
    runChunks p i ([] : List (List α)) = [] := rfl

lemma runChunks_cons {α β : Type} (p : α → Int → β) (i : Int) (b : List α)
    (bs : List (List α)) :
    runChunks p i (b :: bs) = mapIdxFrom p i b ++ runChunks p (i + (b.length : Int)) bs := rfl

lemma mapIdxFrom_length {α β : Type} (p : α → Int → β) :
    ∀ (l : List α) (i : Int), (mapIdxFrom p i l).length = l.length := by
  intro l
  induction l with
  | nil => intro i; rfl
  | cons a t ih => intro i; simp [mapIdxFrom_cons, ih]

lemma mapIdxFrom_getElem? {α β : Type} (p : α → Int → β) :
    ∀ (l : List α) (i : Int) (j : Nat),
      (mapIdxFrom p i l)[j]? = l[j]?.map (fun a => p a (i + (j : Int))) := by
  intro l
  induction l with
  | nil => intro i j; simp [mapIdxFrom_nil]
  | cons a t ih =>
    intro i j
    cases j with
    | zero => simp [mapIdxFrom_cons]
    | succ j =>
      simp only [mapIdxFrom_cons, List.getElem?_cons_succ, ih (i + 1) j]
      have : i + 1 + (j : Int) = i + ((j + 1 : Nat) : Int) := by push_cast; ring
      rw [this]

/-- A batch mapped from global index `i` followed by the rest mapped from
`i + c` is the whole list mapped from `i`. -/
lemma mapIdxFrom_take_drop {α β : Type} (p : α → Int → β) :
    ∀ (c : Nat) (l : List α) (i : Int),
      mapIdxFrom p i (l.take c) ++ mapIdxFrom p (i + (c : Int)) (l.drop c) =
        mapIdxFrom p i l := by
  intro c
  induction c with
  | zero => intro l i; simp [mapIdxFrom_nil]
  | succ c ih =>
    intro l i
    cases l with
    | nil => simp [mapIdxFrom_nil]
    | cons a t =>
      simp only [List.take_succ_cons, List.drop_succ_cons, mapIdxFrom_cons, List.cons_append]
      have : i + ((c + 1 : Nat) : Int) = i + 1 + (c : Int) := by push_cast; ring
      rw [this, ih t (i + 1)]

/-- On natural bounds, the JavaScript slice `items.slice(i, i + c)` is
`(items.drop i).take c`. -/
lemma jsSlice_natCast {α : Type} (l : List α) (i c : Nat) :
    jsSlice l (i : Int) ((i : Int) + (c : Int)) = (l.drop i).take c := by
  unfold jsSlice
  have hs : ¬ ((i : Int) < 0) := by omega
  have he : ¬ ((i : Int) + (c : Int) < 0) := by omega
  simp only [hs, he, if_false]
  have h1 : (min ((i : Int)) ((l.length : Nat) : Int)).toNat = min i l.length := by omega
  have h2 : (min ((i : Int) + (c : Int)) ((l.length : Nat) : Int)).toNat =
      min (i + c) l.length := by omega
  rw [h1, h2]
  rcases Nat.le_total l.length i with hle | hle
  · have hd : l.drop i = [] := List.drop_eq_nil_of_le hle
    rw [hd, List.take_nil]
    exact List.drop_eq_nil_of_le (by simp [List.length_take]; omega)
  · rw [min_eq_left hle, List.drop_take (min (i + c) l.length) i l]
    rw [List.take_eq_take]
    simp only [List.length_drop]
    omega

/-- With a positive concurrency limit the chunk loop terminates (fuel
`remaining + 1` suffices) and appends to the accumulator exactly the
remaining items mapped with their global indices. -/
lemma processConcurrentlyAux_pos {α β : Type} (items : List α) (p : α → Int → β)
    (c : Nat) (hc : 1 ≤ c) :
    ∀ (n i : Nat) (acc : List β), items.length - i ≤ n →
      processConcurrentlyAux items p (c : Int) (n + 1) (i : Int) acc =
        some (acc ++ mapIdxFrom p (i : Int) (items.drop i)) := by
  intro n
  induction n with
  | zero =>
    intro i acc h
    have hguard : ¬ ((i : Int) < (items.length : Int)) := by omega
    rw [processConcurrentlyAux_succ, if_neg hguard,
      List.drop_eq_nil_of_le (by omega), mapIdxFrom_nil, List.append_nil]
  | succ n ih =>
    intro i acc h
    by_cases hi : i < items.length
    · have hguard : (i : Int) < (items.length : Int) := by omega
      rw [processConcurrentlyAux_succ, if_pos hguard, jsSlice_natCast,
        show (i : Int) + (c : Int) = ((i + c : Nat) : Int) by push_cast; ring,
        ih (i + c) _ (by omega)]
      rw [List.append_assoc]
      have hdd : items.drop (i + c) = (items.drop i).drop c := by
        rw [List.drop_drop, Nat.add_comm]
      rw [hdd, show ((i + c : Nat) : Int) = (i : Int) + (c : Int) by push_cast; ring,
        mapIdxFrom_take_drop]
    · have hguard : ¬ ((i : Int) < (items.length : Int)) := by omega
      rw [processConcurrentlyAux_succ, if_neg hguard,
        List.drop_eq_nil_of_le (by omega), mapIdxFrom_nil, List.append_nil]

/-- With a non-positive concurrency limit the loop index never advances past
a non-empty list, so the loop runs out of any finite fuel: the call never
terminates. -/
lemma processConcurrentlyAux_nonpos {α β : Type} (items : List α) (p : α → Int → β)
    (c : Int) (hc : c ≤ 0) (hne : items ≠ []) :
    ∀ (fuel : Nat) (i : Int), i ≤ 0 → ∀ acc,
      processConcurrentlyAux items p c fuel i acc = none := by
  intro fuel
  induction fuel with
  | zero => intro i _ acc; rfl
  | succ fuel ih =>
    intro i hi acc
    have hlen : 0 < items.length := List.length_pos.mpr hne
    have hguard : i < (items.length : Int) := by omega
    rw [processConcurrentlyAux_succ, if_pos hguard]
    exact ih (i + c) (by omega) _

/-- Peeling one chunk off a ceiling division: for `1 ≤ m`, processing one
chunk of size `c` turns `⌈m / c⌉` into `⌈(m - c) / c⌉ + 1` (both written
with the `(x + c - 1) / c` formula). -/
lemma ceil_div_step (m c : Nat) (hc : 1 ≤ c) (hm : 1 ≤ m) :
    (m + c - 1) / c = (m - c + c - 1) / c + 1 := by
  have hl : m + c - 1 = (m - 1) + c := by omega
  rw [hl, Nat.add_div_right _ (by omega)]
  by_cases h : c + 1 ≤ m
  · have hr : m - c + c - 1 = (m - c - 1) + c := by omega
    rw [hr, Nat.add_div_right _ (by omega)]
    have : m - 1 = (m - c - 1) + c := by omega
    rw [this, Nat.add_div_right _ (by omega)]
  · have h1 : m - c = 0 := by omega
    rw [h1, Nat.div_eq_of_lt (by omega), Nat.div_eq_of_lt (by omega)]

/-- With a positive concurrency limit, the chunk-launch trace of the loop
exists and satisfies the chunk contract: the launched chunks are the
consecutive batches of the remaining input (joining back to it), each of
size at most `c`, there are exactly `⌈remaining / c⌉` of them, and
processing them strictly in order with per-chunk global indices reproduces
the indexed map of the remaining input. -/
lemma chunksAux_pos {α β : Type} (items : List α) (p : α → Int → β)
    (c : Nat) (hc : 1 ≤ c) :
    ∀ (n i : Nat) (acc : List (List α)), items.length - i ≤ n →
      ∃ cs, chunksAux items (c : Int) (n + 1) (i : Int) acc = some (acc ++ cs)
        ∧ cs.flatten = items.drop i
        ∧ (∀ b ∈ cs, b.length ≤ c)
        ∧ cs.length = (items.length - i + c - 1) / c
        ∧ runChunks p (i : Int) cs = mapIdxFrom p (i : Int) (items.drop i) := by
  intro n
  induction n with
  | zero =>
    intro i acc h
    have hguard : ¬ ((i : Int) < (items.length : Int)) := by omega
    have hd : items.drop i = [] := List.drop_eq_nil_of_le (by omega)
    refine ⟨[], ?_, ?_, ?_, ?_, ?_⟩
    · rw [chunksAux_succ, if_neg hguard, List.append_nil]
    · simp [hd]
    · intro b hb; exact absurd hb (List.not_mem_nil b)
    · rw [show items.length - i = 0 by omega]
      simp only [List.length_nil, Nat.zero_add]
      exact (Nat.div_eq_of_lt (by omega)).symm
    · rw [runChunks_nil, hd, mapIdxFrom_nil]
  | succ n ih =>
    intro i acc h
    by_cases hi : i < items.length
    · have hguard : (i : Int) < (items.length : Int) := by omega
      obtain ⟨cs', h1, h2, h3, h4, h5⟩ :=
        ih (i + c) (acc ++ [(items.drop i).take c]) (by omega)
      refine ⟨(items.drop i).take c :: cs', ?_, ?_, ?_, ?_, ?_⟩
      · rw [chunksAux_succ, if_pos hguard, jsSlice_natCast,
          show (i : Int) + (c : Int) = ((i + c : Nat) : Int) by push_cast; ring,
          h1, List.append_assoc]
        rfl
      · simp only [List.flatten_cons]
        rw [h2, List.drop_take_append_drop]
      · intro b hb
        rcases List.mem_cons.mp hb with hb | hb
        · subst hb; simp [List.length_take]
        · exact h3 b hb
      · simp only [List.length_cons, h4]
        rw [show items.length - (i + c) = items.length - i - c by omega]
        exact (ceil_div_step (items.length - i) c hc (by omega)).symm
      · rw [runChunks_cons]
        by_cases hce : i + c ≤ items.length
        · have hblen : (((items.drop i).take c).length : Int) = (c : Int) := by
            simp [List.length_take]; omega
          rw [hblen, show (i : Int) + (c : Int) = ((i + c : Nat) : Int) by push_cast; ring,
            h5]
          have hdd : items.drop (i + c) = (items.drop i).drop c := by
            rw [List.drop_drop, Nat.add_comm]
          rw [hdd, show ((i + c : Nat) : Int) = (i : Int) + (c : Int) by push_cast; ring,
            mapIdxFrom_take_drop]
        · have hcs' : cs' = [] := by
            rw [show items.length - (i + c) = 0 by omega,
              Nat.div_eq_of_lt (by omega : 0 + c - 1 < c)] at h4
            exact List.length_eq_zero.mp h4
          subst hcs'
          rw [runChunks_nil, List.append_nil,
            List.take_of_length_le (by simp [List.length_drop]; omega)]
    · have hguard : ¬ ((i : Int) < (items.length : Int)) := by omega
      have hd : items.drop i = [] := List.drop_eq_nil_of_le (by omega)
      refine ⟨[], ?_, ?_, ?_, ?_, ?_⟩
      · rw [chunksAux_succ, if_neg hguard, List.append_nil]
      · simp [hd]
      · intro b hb; exact absurd hb (List.not_mem_nil b)
      · rw [show items.length - i = 0 by omega]
        simp only [List.length_nil, Nat.zero_add]
        exact (Nat.div_eq_of_lt (by omega)).symm
      · rw [runChunks_nil, hd, mapIdxFrom_nil]

/-- Top-level form of the positive case: with `1 ≤ c`, fuel `N + 1`
suffices and the whole run returns the input mapped with its indices. -/
lemma processConcurrently_pos {α β : Type} (items : List α) (p : α → Int → β)
    (c : Nat) (hc : 1 ≤ c) :
    processConcurrently items p (c : Int) (items.length + 1) =
      some (mapIdxFrom p 0 items) := by
  unfold processConcurrently
  have h := processConcurrentlyAux_pos items p c hc items.length 0 [] (by omega)
  simpa using h

/-! ## Claim theorems -/

/-- Claim C1: for every ordered input list of `N` items, every transform
function, and every concurrency limit `C ≥ 1`, `processConcurrently`
terminates (fuel `N + 1` suffices) and returns a list of exactly `N`
results in which `results[i]` is the transform's output for `items[i]` —
input order preserved, no result dropped or duplicated.  Completion-order
independence holds because, in the barrier model, the `Promise.all` result
array is in batch order whatever the completion order. -/
theorem C1_processConcurrently_preserves_order {α β : Type} (items : List α)
    (p : α → Int → β) (c : Int) (hc : 1 ≤ c) :
    ∃ res, processConcurrently items p c (items.length + 1) = some res
      ∧ res.length = items.length
      ∧ ∀ j : Nat, j < items.length →
          res[j]? = items[j]?.map (fun a => p a (j : Int)) := by
  have hc0 : c = ((c.toNat : Nat) : Int) := by omega
  refine ⟨mapIdxFrom p 0 items, ?_, mapIdxFrom_length p items 0, ?_⟩
  · rw [hc0]; exact processConcurrently_pos items p c.toNat (by omega)
  · intro j hj
    rw [mapIdxFrom_getElem? p items 0 j, Int.zero_add]

theorem C1_witness :
    ∃ res, processConcurrently [(10 : Int), 20, 30] (fun a i => a + i) 2 4 = some res
      ∧ res.length = 3
      ∧ ∀ j : Nat, j < 3 →
          res[j]? = [(10 : Int), 20, 30][j]?.map (fun a => a + (j : Int)) :=
  C1_processConcurrently_preserves_order [(10 : Int), 20, 30] (fun a i => a + i) 2
    (by decide)

/-- Claim C2: with `C ≥ 1`, every chunk the loop launches has size at most
`C`, and the run is the strict in-order sequential composition of the
chunks (`runChunks`): a chunk's results are fully incorporated before the
next chunk is examined.  In the barrier model of the source loop
(`await Promise.all` before the next iteration), the transform invocations
outstanding at any instant are exactly those of the currently-running
chunk, so their number never exceeds `C`. -/
theorem C2_at_most_C_in_flight {α β : Type} (items : List α) (p : α → Int → β)
    (c : Int) (hc : 1 ≤ c) :
    ∃ cs, chunks items c (items.length + 1) = some cs
      ∧ (∀ b ∈ cs, (b.length : Int) ≤ c)
      ∧ processConcurrently items p c (items.length + 1) = some (runChunks p 0 cs) := by
  have hc0 : c = ((c.toNat : Nat) : Int) := by omega
  have hcn : 1 ≤ c.toNat := by omega
  obtain ⟨cs, h1, _h2, h3, _h4, h5⟩ :=
    chunksAux_pos items p c.toNat hcn items.length 0 [] (by omega)
  refine ⟨cs, ?_, ?_, ?_⟩
  · unfold chunks; rw [hc0]; simpa using h1
  · intro b hb
    have := h3 b hb
    omega
  · rw [hc0, processConcurrently_pos items p c.toNat hcn]
    have h5' : runChunks p 0 cs = mapIdxFrom p 0 items := by simpa using h5
    rw [h5']

theorem C2_witness :
    ∃ cs, chunks [(1 : Nat), 2, 3, 4, 5] 2 6 = some cs
      ∧ (∀ b ∈ cs, (b.length : Int) ≤ 2)
      ∧ processConcurrently [(1 : Nat), 2, 3, 4, 5] (fun a i => (a, i)) 2 6 =
          some (runChunks (fun a i => (a, i)) 0 cs) :=
  C2_at_most_C_in_flight [(1 : Nat), 2, 3, 4, 5] (fun a i => (a, i)) 2 (by decide)

/-- Claim C3, counterexample: with `C = 0` and the non-empty input `[0]`,
`processConcurrently` neither rejects the call nor clamps the limit: the
loop index never advances, so no finite number of loop iterations ever
produces a result — the call does not terminate, contradicting the claim
that it still terminates and returns the `N` results. -/
theorem C3_counterexample :
    ¬ ∃ fuel : Nat,
        (processConcurrently [(0 : Nat)] (fun a _ => a) 0 fuel).isSome = true := by
  rintro ⟨fuel, hf⟩
  have h := processConcurrentlyAux_nonpos [(0 : Nat)] (fun a _ => a) 0 le_rfl
    (by simp) fuel 0 le_rfl []
  unfold processConcurrently at hf
  rw [h] at hf
  simp at hf

/-- Claim C3, amended: `processConcurrently` does not treat `C ≤ 0` as an
error condition.  It neither rejects the call nor clamps the limit to 1:
for every non-empty input list and every `C ≤ 0`, the chunk loop makes no
progress (`i` never increases past the list length), so the call never
terminates and never returns any results. -/
theorem C3_nonpos_limit_never_terminates {α β : Type} (items : List α)
    (p : α → Int → β) (c : Int) (hc : c ≤ 0) (hne : items ≠ []) (fuel : Nat) :
    processConcurrently items p c fuel = none := by
  unfold processConcurrently
  exact processConcurrentlyAux_nonpos items p c hc hne fuel 0 le_rfl []

theorem C3_amended_witness :
    processConcurrently [(7 : Nat), 8] (fun a _ => a) (-3) 1000 = none :=
  C3_nonpos_limit_never_terminates [(7 : Nat), 8] (fun a _ => a) (-3)
    (by decide) (by simp) 1000

lemma exceptBind_ok {γ δ : Type} (a : γ) (f : γ → Except GhError δ) :
    (Except.ok a >>= f) = f a := rfl

lemma exceptBind_error {γ δ : Type} (e : GhError) (f : γ → Except GhError δ) :
    ((Except.error e : Except GhError γ) >>= f) = Except.error e := rfl

lemma head?_take_one {γ : Type} (l : List γ) : (l.take 1).head? = l.head? := by
  cases l <;> rfl

/-- Claim C4: if any remote step of the enricher fails — resolving the
default branch (`repos.get`), fetching the latest commit
(`repos.listCommits`), or paginating the commit count (only reachable when
the feature flag is on) — `getRepoCommitInfo` catches the error locally
and returns `{commitCount: 0, lastCommitDate: null}`, and a batch run over
any repository list using it as the transform still returns `N` records
(the transform is total, so no failure ever aborts the batch). -/
theorem C4_enrichment_failure_isolated (flag : Bool) (env : CommitEnv)
    (owner repo : String) (e : GhError)
    (hfail :
      env.getRepo owner repo = .error e
      ∨ (∃ d, env.getRepo owner repo = .ok d
          ∧ env.listCommitsPage1 owner repo d.default_branch = .error e)
      ∨ (flag = true ∧ ∃ d page, env.getRepo owner repo = .ok d
          ∧ env.listCommitsPage1 owner repo d.default_branch = .ok page
          ∧ env.paginateCommits owner repo d.default_branch = .error e)) :
    getRepoCommitInfo flag env owner repo = { commitCount := 0, lastCommitDate := none }
    ∧ ∀ (repos : List RepoRef) (c : Int), 1 ≤ c →
        ∃ res,
          processConcurrently repos
            (fun r (_ : Int) => getRepoCommitInfo flag env r.owner r.name) c
            (repos.length + 1) = some res
          ∧ res.length = repos.length := by
  have hE : getRepoCommitInfoE flag env owner repo = .error e := by
    rcases hfail with h | ⟨d, hd, hl⟩ | ⟨hflag, d, page, hd, hl, hp⟩
    · unfold getRepoCommitInfoE
      simp only [h, exceptBind_error]
    · unfold getRepoCommitInfoE
      simp only [hd, exceptBind_ok, hl, exceptBind_error]
    · subst hflag
      unfold getRepoCommitInfoE
      simp only [hd, exceptBind_ok, hl, if_true, hp, exceptBind_error]
  constructor
  · unfold getRepoCommitInfo
    rw [hE]
  · intro repos c hc
    refine ⟨mapIdxFrom (fun r (_ : Int) => getRepoCommitInfo flag env r.owner r.name) 0 repos,
      ?_, mapIdxFrom_length _ repos 0⟩
    rw [show c = ((c.toNat : Nat) : Int) by omega]
    exact processConcurrently_pos repos _ c.toNat (by omega)

theorem C4_witness :
    getRepoCommitInfo false failingCommitEnv "octo" "demo" =
      { commitCount := 0, lastCommitDate := none }
    ∧ ∀ (repos : List RepoRef) (c : Int), 1 ≤ c →
        ∃ res,
          processConcurrently repos
            (fun r (_ : Int) => getRepoCommitInfo false failingCommitEnv r.owner r.name) c
            (repos.length + 1) = some res
          ∧ res.length = repos.length :=
  C4_enrichment_failure_isolated false failingCommitEnv "octo" "demo"
    { status := some 404, message := "Not Found" } (Or.inl rfl)

/-- Claim C5: for every input list and every concurrency limit `C` at least
the list length, the run produces a result list identical value-for-value
to the run with `C = 1`: the limit affects scheduling only, never output
content or order. -/
theorem C5_large_limit_equals_sequential {α β : Type} (items : List α)
    (p : α → Int → β) (c : Int) (hc : (items.length : Int) ≤ c) :
    ∃ res, processConcurrently items p c (items.length + 1) = some res
      ∧ processConcurrently items p 1 (items.length + 1) = some res := by
  refine ⟨mapIdxFrom p 0 items, ?_, ?_⟩
  · cases items with
    | nil =>
      unfold processConcurrently
      rw [processConcurrentlyAux_succ, if_neg (by simp), mapIdxFrom_nil]
    | cons a t =>
      have h1 : 1 ≤ c := by
        have : (0 : Int) < ((a :: t).length : Int) := by
          simp [List.length_cons]
        omega
      rw [show c = ((c.toNat : Nat) : Int) by omega]
      exact processConcurrently_pos (a :: t) p c.toNat (by omega)
  · rw [show (1 : Int) = ((1 : Nat) : Int) by norm_num]
    exact processConcurrently_pos items p 1 le_rfl

theorem C5_witness :
    ∃ res, processConcurrently [(4 : Nat), 5, 6] (fun a i => (a, i)) 50 4 = some res
      ∧ processConcurrently [(4 : Nat), 5, 6] (fun a i => (a, i)) 1 4 = some res :=
  C5_large_limit_equals_sequential [(4 : Nat), 5, 6] (fun a i => (a, i)) 50 (by decide)

/-- Claim C6: with `C ≥ 1`, the launched chunks are consecutive, each has
size at most `C`, their concatenation is the input, and there are exactly
`⌈N / C⌉` of them (written `(N + C - 1) / C` in natural division); in
particular 25 items with `C = 10` are processed as exactly 3 chunks of
sizes 10, 10, and 5. -/
theorem C6_chunk_partition :
    (∀ (α : Type) (items : List α) (c : Int), 1 ≤ c →
      ∃ cs, chunks items c (items.length + 1) = some cs
        ∧ cs.flatten = items
        ∧ (∀ b ∈ cs, (b.length : Int) ≤ c)
        ∧ cs.length = (items.length + c.toNat - 1) / c.toNat)
    ∧ (chunks (List.range 25) 10 26).map (fun cs => cs.map List.length) =
        some [10, 10, 5] := by
  constructor
  · intro α items c hc
    have hcn : 1 ≤ c.toNat := by omega
    obtain ⟨cs, h1, h2, h3, h4, _h5⟩ :=
      chunksAux_pos items (fun (a : α) (_ : Int) => a) c.toNat hcn items.length 0 []
        (by omega)
    refine ⟨cs, ?_, ?_, ?_, ?_⟩
    · unfold chunks
      rw [show c = ((c.toNat : Nat) : Int) by omega]
      simpa using h1
    · simpa using h2
    · intro b hb
      have := h3 b hb
      omega
    · simpa using h4
  · rfl

theorem C6_witness :
    ∃ cs, chunks [(0 : Nat), 1, 2, 3, 4] 2 6 = some cs
      ∧ cs.flatten = [0, 1, 2, 3, 4]
      ∧ (∀ b ∈ cs, (b.length : Int) ≤ 2)
      ∧ cs.length = (5 + (2 : Int).toNat - 1) / (2 : Int).toNat :=
  C6_chunk_partition.1 Nat [0, 1, 2, 3, 4] 2 (by decide)

/-- Claim C7: when every remote lookup succeeds, `getRepoCommitInfo`
returns `lastCommitDate` equal to the committer timestamp of the most
recent commit of the default branch (the head of the branch's newest-first
commit list, of which the `per_page: 1` call returns the first page), or
`null` when the branch has no commits; and `commitCount` equal to the full
commit count when the feature flag is enabled, else the sentinel `-1`
meaning "not computed"; the flag `FETCH_COMMIT_COUNT` defaults to off. -/
theorem C7_success_record (flag : Bool) (env : CommitEnv) (owner repo : String)
    (d : RepoDetail) (branchCommits : List Commit)
    (hrepo : env.getRepo owner repo = .ok d)
    (hpage : env.listCommitsPage1 owner repo d.default_branch =
      .ok (branchCommits.take 1))
    (hall : env.paginateCommits owner repo d.default_branch = .ok branchCommits) :
    getRepoCommitInfo flag env owner repo =
      { commitCount := if flag then (branchCommits.length : Int) else -1
        lastCommitDate := branchCommits.head?.map (fun c => c.commit.committer.date) }
    ∧ FETCH_COMMIT_COUNT = false := by
  refine ⟨?_, rfl⟩
  have hE : getRepoCommitInfoE flag env owner repo = .ok
      { commitCount := if flag then (branchCommits.length : Int) else -1
        lastCommitDate :=
          (branchCommits.take 1).head?.map (fun c => c.commit.committer.date) } := by
    unfold getRepoCommitInfoE
    cases flag with
    | false => simp only [hrepo, exceptBind_ok, hpage, Bool.false_eq_true, if_false]
    | true => simp only [hrepo, exceptBind_ok, hpage, if_true, hall]
  unfold getRepoCommitInfo
  rw [hE, head?_take_one]

theorem C7_witness :
    getRepoCommitInfo false demoCommitEnv "octo" "demo" =
      { commitCount :=
          if false then
            (([{ commit := { committer := { date := "2025-08-01T00:00:00Z" } } },
               { commit := { committer := { date := "2025-07-01T00:00:00Z" } } }] :
                List Commit).length : Int)
          else -1
        lastCommitDate :=
          ([{ commit := { committer := { date := "2025-08-01T00:00:00Z" } } },
            { commit := { committer := { date := "2025-07-01T00:00:00Z" } } }] :
              List Commit).head?.map (fun c => c.commit.committer.date) }
    ∧ FETCH_COMMIT_COUNT = false :=
  C7_success_record false demoCommitEnv "octo" "demo" { default_branch := "main" }
    [{ commit := { committer := { date := "2025-08-01T00:00:00Z" } } },
     { commit := { committer := { date := "2025-07-01T00:00:00Z" } } }]
    rfl rfl rfl

/-- Claim C8: when the listing raises an error, `getUserRepos` logs the
generic message, logs a classification hint for status 404 (user not
found) or 401 (unauthorized), and re-raises the very same error — never
downgrading it to an `ok` partial or empty result — and `run` then aborts
with exit code 1. -/
theorem C8_listing_error_logged_and_reraised {ρ : Type} (env : ListEnv ρ)
    (username : String) (e : GhError)
    (hfail : getUserReposTry env username = .error e) :
    (getUserRepos env username).1 = .error e
    ∧ ("Error fetching repositories: " ++ e.message) ∈ (getUserRepos env username).2
    ∧ (e.status = some 404 →
        "User not found or you don\x27t have access to their repositories" ∈
          (getUserRepos env username).2)
    ∧ (e.status = some 401 →
        "Invalid GitHub token or insufficient permissions" ∈
          (getUserRepos env username).2)
    ∧ runExit env username = 1 := by
  have hg : getUserRepos env username = (.error e, listingErrorLog e) := by
    unfold getUserRepos
    rw [hfail]
  refine ⟨by rw [hg], ?_, ?_, ?_, ?_⟩
  · rw [hg]
    unfold listingErrorLog
    exact List.mem_append_left _ (List.mem_singleton_self _)
  · intro h404
    rw [hg]
    unfold listingErrorLog
    rw [h404]
    simp
  · intro h401
    rw [hg]
    unfold listingErrorLog
    rw [h401]
    simp
  · unfold runExit runExcept
    cases hA : env.getAuthenticated with
    | error eA => simp only [hA, exceptBind_error]
    | ok u => simp only [hA, exceptBind_ok, hfail, exceptBind_error]

theorem C8_witness :
    (getUserRepos failingListEnv "bob").1 =
      .error { status := some 404, message := "Not Found" }
    ∧ ("Error fetching repositories: " ++
        ({ status := some 404, message := "Not Found" } : GhError).message) ∈
        (getUserRepos failingListEnv "bob").2
    ∧ (({ status := some 404, message := "Not Found" } : GhError).status = some 404 →
        "User not found or you don\x27t have access to their repositories" ∈
          (getUserRepos failingListEnv "bob").2)
    ∧ (({ status := some 404, message := "Not Found" } : GhError).status = some 401 →
        "Invalid GitHub token or insufficient permissions" ∈
          (getUserRepos failingListEnv "bob").2)
    ∧ runExit failingListEnv "bob" = 1 :=
  C8_listing_error_logged_and_reraised failingListEnv "bob"
    { status := some 404, message := "Not Found" } (by rfl)

/-- Claim C9, counterexample: at username `alice` and current ISO timestamp
`2025-08-06T13:15:30.123Z`, the filename the code builds is
`alice-repositories-2025-08-06T13-15-30.csv`, not the claimed
`alice-repositories-2025-08-06T13-15-30-123Z.csv` built from the full
substituted timestamp: the code truncates to 19 characters. -/
theorem C9_counterexample :
    outputPathOf none "alice" "2025-08-06T13:15:30.123Z" ≠
      specDefaultOutputPath "alice" "2025-08-06T13:15:30.123Z" := by
  decide

/-- Claim C9, amended: when no output path argument is given the filename
is `<username>-repositories-<T>.csv` where `T` is the current ISO 8601
timestamp with every colon and dot replaced by a dash and then truncated
to its first 19 characters (seconds precision — the millisecond part and
the trailing `Z` are dropped); `T` contains no colon and no dot. -/
theorem C9_default_filename_truncated (username iso : String) :
    outputPathOf none username iso =
      username ++ "-repositories-" ++ timestampOf iso ++ ".csv"
    ∧ timestampOf iso = String.mk ((specTimestamp iso).toList.take 19)
    ∧ ∀ ch ∈ (timestampOf iso).toList, ch ≠ ':' ∧ ch ≠ '.' := by
  refine ⟨rfl, rfl, ?_⟩
  intro ch hch
  have hch' : ch ∈ (iso.toList.map jsReplaceColonDot).take 19 := hch
  have hmem := List.take_subset _ _ hch'
  obtain ⟨x, _hx, hfx⟩ := List.mem_map.mp hmem
  subst hfx
  unfold jsReplaceColonDot
  simp only [Bool.or_eq_true, decide_eq_true_eq]
  by_cases hx : x = ':' ∨ x = '.'
  · rw [if_pos hx]
    exact ⟨by decide, by decide⟩
  · rw [if_neg hx]
    push_neg at hx
    exact hx

theorem C9_amended_witness :
    outputPathOf none "alice" "2025-08-06T13:15:30.123Z" =
      "alice" ++ "-repositories-" ++ timestampOf "2025-08-06T13:15:30.123Z" ++ ".csv"
    ∧ timestampOf "2025-08-06T13:15:30.123Z" =
        String.mk ((specTimestamp "2025-08-06T13:15:30.123Z").toList.take 19)
    ∧ ∀ ch ∈ (timestampOf "2025-08-06T13:15:30.123Z").toList, ch ≠ ':' ∧ ch ≠ '.' :=
  C9_default_filename_truncated "alice" "2025-08-06T13:15:30.123Z"

/-- Claim C10: the selection between the two listing modes is decided by a
case-insensitive comparison: when the authenticated lookup succeeds, the
listing call performed is the own-account one (`listForAuthenticatedUser`,
all visibilities, owner affiliation) exactly when the authenticated
user's login and the requested username are equal after lowercasing both,
and the public-only one (`listForUser`) otherwise. -/
theorem C10_mode_selected_by_lowercase {ρ : Type} (env : ListEnv ρ)
    (username : String) (authenticatedUser : User)
    (hauth : env.getAuthenticated = .ok authenticatedUser) :
    getUserReposTry env username =
      (if jsToLowerCase authenticatedUser.login = jsToLowerCase username then
        env.listForAuthenticatedUser
      else env.listForUser username) := by
  unfold getUserReposTry
  simp only [hauth, exceptBind_ok]

theorem C10_witness :
    getUserReposTry demoListEnv "ALICE" =
      (if jsToLowerCase "Alice" = jsToLowerCase "ALICE" then
        demoListEnv.listForAuthenticatedUser
      else demoListEnv.listForUser "ALICE") :=
  C10_mode_selected_by_lowercase demoListEnv "ALICE" { login := "Alice" } rfl
